import Mathlib

/-!
Verification development for the `icarogw` prior-distribution library
(`icarogw/priors.py`).  The Python code computes with IEEE floating-point
arrays; we embed its numeric domain as exact real numbers extended with the
three non-finite float values (`+inf`, `-inf`, `nan`), so that the library's
deliberate use of `log 0 = -inf`, `exp (-inf) = 0` and nan-propagation is
modelled faithfully (rounding is not modelled).
-/

/-- Numeric domain of the embedding: a float value is either a finite real,
`+inf`, `-inf` or `nan`. -/
inductive F where
  | fin : ℝ → F
  | pinf : F
  | ninf : F
  | nan : F

/-- True exactly on the `nan` value, as `xp.isnan`. -/
def F.isNaN : F → Bool
  | .nan => true
  | _ => false

/-- IEEE-style addition on the extended values (exact on finite ones). -/
noncomputable def F.add : F → F → F
  | .nan, _ => .nan
  | _, .nan => .nan
  | .pinf, .ninf => .nan
  | .ninf, .pinf => .nan
  | .pinf, _ => .pinf
  | _, .pinf => .pinf
  | .ninf, _ => .ninf
  | _, .ninf => .ninf
  | .fin a, .fin b => .fin (a + b)

/-- IEEE-style negation. -/
noncomputable def F.neg : F → F
  | .nan => .nan
  | .pinf => .ninf
  | .ninf => .pinf
  | .fin a => .fin (-a)

/-- IEEE-style subtraction, `a - b = a + (-b)`. -/
noncomputable def F.sub (a b : F) : F := F.add a (F.neg b)

/-- IEEE-style multiplication; `inf * 0 = nan`. -/
noncomputable def F.mul : F → F → F
  | .nan, _ => .nan
  | _, .nan => .nan
  | .fin a, .fin b => .fin (a * b)
  | .pinf, .pinf => .pinf
  | .pinf, .ninf => .ninf
  | .ninf, .pinf => .ninf
  | .ninf, .ninf => .pinf
  | .pinf, .fin b => if 0 < b then .pinf else if b < 0 then .ninf else .nan
  | .fin a, .pinf => if 0 < a then .pinf else if a < 0 then .ninf else .nan
  | .ninf, .fin b => if 0 < b then .ninf else if b < 0 then .pinf else .nan
  | .fin a, .ninf => if 0 < a then .ninf else if a < 0 then .pinf else .nan

/-- IEEE-style division; `x/0` gives a signed infinity, `0/0 = nan`,
`inf/inf = nan`. -/
noncomputable def F.div : F → F → F
  | .nan, _ => .nan
  | _, .nan => .nan
  | .fin a, .fin b =>
      if b = 0 then (if a = 0 then .nan else if 0 < a then .pinf else .ninf)
      else .fin (a / b)
  | .pinf, .fin b => if 0 ≤ b then .pinf else .ninf
  | .ninf, .fin b => if 0 ≤ b then .ninf else .pinf
  | .fin _, .pinf => .fin 0
  | .fin _, .ninf => .fin 0
  | _, _ => .nan

/-- Float semantics of `xp.log`: `log 0 = -inf`, `log` of a negative is `nan`. -/
noncomputable def flog : F → F
  | .nan => .nan
  | .pinf => .pinf
  | .ninf => .nan
  | .fin a => if 0 < a then .fin (Real.log a) else if a = 0 then .ninf else .nan

/-- Float semantics of `xp.exp`: `exp (-inf) = 0`. -/
noncomputable def fexp : F → F
  | .nan => .nan
  | .pinf => .pinf
  | .ninf => .fin 0
  | .fin a => .fin (Real.exp a)

/-- Float semantics of `xp.log1p`. -/
noncomputable def flog1p : F → F
  | .nan => .nan
  | .pinf => .pinf
  | .ninf => .nan
  | .fin a =>
      if 0 < 1 + a then .fin (Real.log (1 + a)) else if 1 + a = 0 then .ninf else .nan

/-- Mathematical content of `xp.logaddexp a b = log (exp a + exp b)`. -/
noncomputable def F.logaddexp (a b : F) : F := flog (F.add (fexp a) (fexp b))

/-- Real value of a float, sending the non-finite values to `0`; used only to
feed tabulated cdf values (which are finite in all scenarios considered) into
the linear-interpolation routine. -/
def F.toReal : F → ℝ
  | .fin a => a
  | _ => 0

@[simp] lemma F.isNaN_fin (a : ℝ) : (F.fin a).isNaN = false := rfl
@[simp] lemma F.isNaN_ninf : F.ninf.isNaN = false := rfl
@[simp] lemma F.isNaN_pinf : F.pinf.isNaN = false := rfl
@[simp] lemma F.isNaN_nan : F.nan.isNaN = true := rfl

@[simp] lemma F.add_fin_fin (a b : ℝ) : F.add (.fin a) (.fin b) = .fin (a + b) := rfl
@[simp] lemma F.add_ninf_fin (b : ℝ) : F.add .ninf (.fin b) = .ninf := rfl
@[simp] lemma F.add_fin_ninf (a : ℝ) : F.add (.fin a) .ninf = .ninf := rfl
@[simp] lemma F.add_ninf_ninf : F.add .ninf .ninf = .ninf := rfl
@[simp] lemma F.add_ninf_pinf : F.add .ninf .pinf = .nan := rfl
@[simp] lemma F.add_pinf_fin (b : ℝ) : F.add .pinf (.fin b) = .pinf := rfl
@[simp] lemma F.add_fin_pinf (a : ℝ) : F.add (.fin a) .pinf = .pinf := rfl

@[simp] lemma F.neg_fin (a : ℝ) : F.neg (.fin a) = .fin (-a) := rfl
@[simp] lemma F.neg_ninf : F.neg .ninf = .pinf := rfl
@[simp] lemma F.neg_pinf : F.neg .pinf = .ninf := rfl

@[simp] lemma F.sub_fin_fin (a b : ℝ) : F.sub (.fin a) (.fin b) = .fin (a - b) := by
  simp [F.sub, sub_eq_add_neg]

@[simp] lemma F.sub_ninf_fin (b : ℝ) : F.sub .ninf (.fin b) = .ninf := rfl
@[simp] lemma F.sub_ninf_ninf : F.sub .ninf .ninf = .nan := rfl
@[simp] lemma F.sub_fin_ninf (a : ℝ) : F.sub (.fin a) .ninf = .pinf := rfl

@[simp] lemma F.mul_fin_fin (a b : ℝ) : F.mul (.fin a) (.fin b) = .fin (a * b) := rfl

@[simp] lemma fexp_fin (a : ℝ) : fexp (.fin a) = .fin (Real.exp a) := rfl
@[simp] lemma fexp_ninf : fexp .ninf = .fin 0 := rfl

lemma flog_fin_pos {a : ℝ} (h : 0 < a) : flog (.fin a) = .fin (Real.log a) := by
  simp [flog, h]

@[simp] lemma flog_fin_zero : flog (.fin 0) = .ninf := by simp [flog]

@[simp] lemma F.toReal_fin (a : ℝ) : (F.fin a).toReal = a := rfl

/-- Shallow embedding of the class `basic_1dimpdf`: the support bounds together
with the two subclass kernels `_log_pdf` and `_log_cdf`. -/
structure basic_1dimpdf where
  minval : ℝ
  maxval : ℝ
  _log_pdf : ℝ → F
  _log_cdf : ℝ → F

/-- Method `basic_1dimpdf.log_pdf`: kernel value clamped to `-inf` outside
`[minval, maxval]` (the mask `(x < minval) | (x > maxval)` of
`_check_bound_pdf`). -/
noncomputable def basic_1dimpdf.log_pdf (d : basic_1dimpdf) (x : ℝ) : F :=
  if x < d.minval ∨ x > d.maxval then .ninf else d._log_pdf x

/-- Method `basic_1dimpdf.log_cdf`: `_check_bound_cdf` first writes `-inf`
where `x < minval` and then `0` where `x > maxval`, so the `maxval` write wins
on any overlap. -/
noncomputable def basic_1dimpdf.log_cdf (d : basic_1dimpdf) (x : ℝ) : F :=
  if x > d.maxval then .fin 0 else if x < d.minval then .ninf else d._log_cdf x

/-- Method `basic_1dimpdf.pdf = exp (log_pdf)`. -/
noncomputable def basic_1dimpdf.pdf (d : basic_1dimpdf) (x : ℝ) : F :=
  fexp (d.log_pdf x)

/-- Method `basic_1dimpdf.cdf = exp (log_cdf)`. -/
noncomputable def basic_1dimpdf.cdf (d : basic_1dimpdf) (x : ℝ) : F :=
  fexp (d.log_cdf x)

/-- The cdf as a real number (all tabulated cdf values are finite floats in the
sampling scenarios considered). -/
noncomputable def basic_1dimpdf.cdfR (d : basic_1dimpdf) (x : ℝ) : ℝ :=
  (d.cdf x).toReal

/-- The window function `_S_factor` (Eqs. B6 and B7 of arXiv:2010.14533),
translated region by region: `effe_prime` is overwritten with the exponential
on the open window, `to_ret = 1/(effe_prime + 1)` everywhere, then the
`mass <= mmin` region is set to `0` and finally the `mass >= delta_m + mmin`
region is set to `1`.  Inside the open window the argument of `exp` is finite,
so the `nan_to_num` guard of the source is the identity there. -/
noncomputable def _S_factor (mass mmin delta_m : ℝ) : ℝ :=
  if delta_m = 0 then 1
  else
    let mprime := mass - mmin
    let effe_prime : ℝ :=
      if mmin < mass ∧ mass < delta_m + mmin then
        Real.exp (delta_m / mprime + delta_m / (mprime - delta_m))
      else 1
    let t0 : ℝ := 1 / (effe_prime + 1)
    let t1 : ℝ := if mass ≤ mmin then 0 else t0
    if delta_m + mmin ≤ mass then 1 else t1

/-- Function `PL_normfact`: the power-law normalization constant. -/
noncomputable def PL_normfact (minpl maxpl alpha : ℝ) : ℝ :=
  if alpha = -1 then Real.log (maxpl / minpl)
  else (maxpl ^ (alpha + 1) - minpl ^ (alpha + 1)) / (alpha + 1)

/-- Class `PowerLaw`: support `[minpl, maxpl]`, kernels as in `_log_pdf` and
`_log_cdf` of the source. -/
noncomputable def PowerLaw (minpl maxpl alpha : ℝ) : basic_1dimpdf where
  minval := minpl
  maxval := maxpl
  _log_pdf := fun x =>
    F.sub (F.mul (.fin alpha) (flog (.fin x))) (flog (.fin (PL_normfact minpl maxpl alpha)))
  _log_cdf := fun x =>
    if alpha = -1 then
      flog (F.div (flog (.fin (x / minpl))) (.fin (PL_normfact minpl maxpl alpha)))
    else
      flog (.fin (((x ^ (alpha + 1) - minpl ^ (alpha + 1)) / (alpha + 1)) /
        PL_normfact minpl maxpl alpha))

/-- Shallow embedding of the class `conditional_2dimpdf`: a pair of
1-dimensional distributions with the convention `x2 < x1`. -/
structure conditional_2dimpdf where
  pdf1 : basic_1dimpdf
  pdf2 : basic_1dimpdf

/-- Method `conditional_2dimpdf._check_bound_pdf`: the mask
`(x1 < x2) | xp.isnan(y)` is set to `-inf`. -/
noncomputable def conditional_2dimpdf._check_bound_pdf (x1 x2 : ℝ) (y : F) : F :=
  if x1 < x2 ∨ y.isNaN = true then .ninf else y

/-- Method `conditional_2dimpdf.log_pdf`:
`pdf1.log_pdf(x1) + pdf2.log_pdf(x2) - pdf2.log_cdf(x1)` followed by the
boundary/nan check. -/
noncomputable def conditional_2dimpdf.log_pdf (d : conditional_2dimpdf) (x1 x2 : ℝ) : F :=
  conditional_2dimpdf._check_bound_pdf x1 x2
    (F.sub (F.add (d.pdf1.log_pdf x1) (d.pdf2.log_pdf x2)) (d.pdf2.log_cdf x1))

/-- Method `conditional_2dimpdf.pdf = exp (log_pdf)`. -/
noncomputable def conditional_2dimpdf.pdf (d : conditional_2dimpdf) (x1 x2 : ℝ) : F :=
  fexp (d.log_pdf x1 x2)

/-- The grid `xp.linspace a b n`: the `n` points `a + i*(b-a)/(n-1)`. -/
noncomputable def linspaceList (a b : ℝ) (n : ℕ) : List ℝ :=
  (List.range n).map fun i : ℕ => a + (i : ℝ) * (b - a) / ((n : ℝ) - 1)

/-- Linear interpolation `xp.interp q xs ys` for an increasing table `xs`:
queries at or below the first knot return the first value, queries beyond the
last knot return the last value, and queries inside a segment are interpolated
linearly. -/
noncomputable def interp (q : ℝ) : List ℝ → List ℝ → ℝ
  | x1 :: x2 :: xs, y1 :: y2 :: ys =>
      if q ≤ x1 then y1
      else if q ≤ x2 then y1 + (y2 - y1) * (q - x1) / (x2 - x1)
      else interp q (x2 :: xs) (y2 :: ys)
  | [_], [y1] => y1
  | _, _ => 0

/-- First half of `conditional_2dimpdf.sample` for a single draw: `x1` is the
interpolated inverse of the tabulated cdf of `pdf1` at the uniform variate
`u1`. -/
noncomputable def conditional_2dimpdf.sample_x1 (d : conditional_2dimpdf) (u1 : ℝ) : ℝ :=
  interp u1 ((linspaceList d.pdf1.minval d.pdf1.maxval 10000).map d.pdf1.cdfR)
    (linspaceList d.pdf1.minval d.pdf1.maxval 10000)

/-- Second half of `conditional_2dimpdf.sample` for a single draw: the uniform
variate `u2` is rescaled by `pdf2.cdf(x1samp)` before inverting the tabulated
cdf of `pdf2`. -/
noncomputable def conditional_2dimpdf.sample_x2 (d : conditional_2dimpdf) (u1 u2 : ℝ) : ℝ :=
  interp (u2 * d.pdf2.cdfR (d.sample_x1 u1))
    ((linspaceList d.pdf2.minval d.pdf2.maxval 10000).map d.pdf2.cdfR)
    (linspaceList d.pdf2.minval d.pdf2.maxval 10000)

/-- Method `conditional_2dimpdf.sample`, one draw `(x1samp, x2samp)` as a
function of the two underlying uniform variates. -/
noncomputable def conditional_2dimpdf.sample (d : conditional_2dimpdf) (u1 u2 : ℝ) : ℝ × ℝ :=
  (d.sample_x1 u1, d.sample_x2 u1 u2)

/-- The error function used by the source through `scipy`/the array backend:
`erf x = 2/sqrt(pi) * integral of exp(-t^2) from 0 to x`. -/
noncomputable def erf (x : ℝ) : ℝ :=
  (2 / Real.sqrt Real.pi) * ∫ t in (0:ℝ)..x, Real.exp (-t ^ 2)

/-- Function `get_gaussian_norm`. -/
noncomputable def get_gaussian_norm (ming maxg meang sigmag : ℝ) : ℝ :=
  0.5 * erf ((maxg - meang) / (sigmag * Real.sqrt 2)) -
    0.5 * erf ((ming - meang) / (sigmag * Real.sqrt 2))

/-- Class `TruncatedGaussian`. -/
noncomputable def TruncatedGaussian (meang sigmag ming maxg : ℝ) : basic_1dimpdf where
  minval := ming
  maxval := maxg
  _log_pdf := fun x =>
    F.sub
      (F.sub
        (F.sub (F.neg (flog (.fin sigmag)))
          (F.mul (.fin 0.5) (flog (.fin (2 * Real.pi)))))
        (F.mul (.fin 0.5)
          (F.mul (F.div (.fin (x - meang)) (.fin sigmag))
            (F.div (.fin (x - meang)) (.fin sigmag)))))
      (flog (.fin (get_gaussian_norm ming maxg meang sigmag)))
  _log_cdf := fun x =>
    flog (.fin ((0.5 * erf ((x - meang) / (sigmag * Real.sqrt 2)) -
      0.5 * erf ((ming - meang) / (sigmag * Real.sqrt 2))) /
        get_gaussian_norm ming maxg meang sigmag))

/-- Class `PowerLawGaussian`: support `[min(minpl,ming), max(maxpl,maxg)]`,
log-density the `logaddexp` mixture of the two component log-densities and
log-cdf the logarithm of the weighted sum of the two component cdfs. -/
noncomputable def PowerLawGaussian (minpl maxpl alpha lambdag meang sigmag ming maxg : ℝ) :
    basic_1dimpdf where
  minval := min minpl ming
  maxval := max maxpl maxg
  _log_pdf := fun x =>
    F.logaddexp
      (F.add (flog1p (.fin (-lambdag))) ((PowerLaw minpl maxpl alpha).log_pdf x))
      (F.add (flog (.fin lambdag)) ((TruncatedGaussian meang sigmag ming maxg).log_pdf x))
  _log_cdf := fun x =>
    flog (F.add (F.mul (.fin (1 - lambdag)) ((PowerLaw minpl maxpl alpha).cdf x))
      (F.mul (.fin lambdag) ((TruncatedGaussian meang sigmag ming maxg).cdf x)))

/-- The grid `np.linspace a b n` over the rationals (exact arithmetic), for the
computable parts of the embedding. -/
def linspaceQ (a b : ℚ) (n : ℕ) : List ℚ :=
  (List.range n).map fun i : ℕ => a + (i : ℚ) * (b - a) / ((n : ℚ) - 1)

/-- The spline grid of `SplineWrapper.generate_spline_from_slope_list`:
`n_bins` equally spaced points on `[-x_range, x_range]`. -/
def SplineWrapper_x_points (x_range : ℚ) (n : ℕ) : List ℚ :=
  linspaceQ (-x_range) x_range n

/-- The grid spacing `delta_x = x_points[1] - x_points[0]`. -/
def SplineWrapper_delta_x (x_range : ℚ) (n : ℕ) : ℚ :=
  (SplineWrapper_x_points x_range n).getD 1 0 - (SplineWrapper_x_points x_range n).getD 0 0

/-- The tangent array `dy_dx`: each slope plus the offset `1/2`, then the whole
array divided by `sum(dy_dx)/n_bins`. -/
def SplineWrapper_dy_dx (s : List ℚ) : List ℚ :=
  (s.map (· + 1/2)).map fun v => v / ((s.map (· + 1/2)).sum / (s.length : ℚ))

/-- The y-points before the middle shift: `y[0] = x_points[0]` and
`y[i] = y[i-1] + delta_x * dy_dx[i-1]` (the cumulative left Riemann sum). -/
def SplineWrapper_y_raw (x_range : ℚ) (s : List ℚ) : ℕ → ℚ
  | 0 => -x_range
  | i + 1 =>
      SplineWrapper_y_raw x_range s i +
        SplineWrapper_delta_x x_range s.length * (SplineWrapper_dy_dx s).getD i 0

/-- The middle index `int((n_bins - 1)/2)`. -/
def SplineWrapper_mid (n : ℕ) : ℕ := (n - 1) / 2

/-- The final y-points: shifted so that the middle point maps to `0`. -/
def SplineWrapper_y_points (x_range : ℚ) (s : List ℚ) (i : ℕ) : ℚ :=
  SplineWrapper_y_raw x_range s i -
    SplineWrapper_y_raw x_range s (SplineWrapper_mid s.length)

/-- Inversion `n_bins_1d = int(-1/2 + sqrt(1/4 + 2*n_bins))` of the triangular
count `n(n+1)/2`, in exact integer arithmetic:
`int((sqrt(8N+1) - 1)/2)`. -/
def pc2d_n_bins_1d (N : ℕ) : ℕ := (Nat.sqrt (1 + 8 * N) - 1) / 2

/-- Row-major position of the upper-triangle pair `(r, c)` (`r ≤ c`) in the
flattened weight list, as produced by `np.triu_indices`. -/
def pc2d_triuIdx (n r c : ℕ) : ℕ := r * n - r * (r - 1) / 2 + (c - r)

/-- Entry `(r, c)` of the matrix `weights_upper_triangle_matrix` of
`compute_norm` after the diagonal is multiplied by `1/2`: the flattened weight
on the upper triangle, `0` elsewhere. -/
def pc2d_triu_weight (w : List ℚ) (n r c : ℕ) : ℚ :=
  if r ≤ c ∧ c < n then (if r = c then (1 : ℚ)/2 else 1) * w.getD (pc2d_triuIdx n r c) 0
  else 0

/-- The sum of the halved-diagonal weight matrix in `compute_norm`. -/
def pc2d_matrix_sum (w : List ℚ) (n : ℕ) : ℚ :=
  ∑ r in Finset.range n, ∑ c in Finset.range n, pc2d_triu_weight w n r c

/-- The 2D grid spacing `delta_bin_x1 = grid_x1[1] - grid_x1[0]` with
`grid_x1 = linspace(dist_min, dist_max, n_bins_1d + 1)`. -/
def pc2d_delta_bin (dmin dmax : ℚ) (n : ℕ) : ℚ :=
  (linspaceQ dmin dmax (n + 1)).getD 1 0 - (linspaceQ dmin dmax (n + 1)).getD 0 0

/-- Method `piecewise_constant_2d_distribution_normalized.compute_norm`:
`1 / sum(matrix) * 1 / delta_bin_x1 / delta_bin_x2`. -/
def pc2d_compute_norm (dmin dmax : ℚ) (w : List ℚ) (n : ℕ) : ℚ :=
  1 / pc2d_matrix_sum w n * 1 / pc2d_delta_bin dmin dmax n * 1 / pc2d_delta_bin dmin dmax n

/-- The bin edges of `piecewise_constant_distribution_normalized`:
`n_bins + 1` equally spaced points. -/
noncomputable def pcd_bins (dmin dmax : ℝ) (n : ℕ) : List ℝ := linspaceList dmin dmax (n + 1)

/-- The edges extended by `-inf` below and `inf` above
(`bins_with_boundaries`). -/
noncomputable def pcd_bins_wb (dmin dmax : ℝ) (n : ℕ) : List EReal :=
  (⊥ : EReal) :: ((pcd_bins dmin dmax n).map (fun t : ℝ => (t : EReal)) ++ [(⊤ : EReal)])

/-- The weights extended by a zero bin on either side
(`weights_with_boundaries`). -/
def pcd_wwb (w : List ℝ) : List ℝ := 0 :: (w ++ [0])

/-- The bin width `delta_bin = bins[1] - bins[0]`. -/
noncomputable def pcd_delta (dmin dmax : ℝ) (n : ℕ) : ℝ :=
  (pcd_bins dmin dmax n).getD 1 0 - (pcd_bins dmin dmax n).getD 0 0

/-- The normalization `norm = 1/sum(weights) * 1/delta_bin`. -/
noncomputable def pcd_norm (dmin dmax : ℝ) (w : List ℝ) : ℝ :=
  1 / w.sum * 1 / pcd_delta dmin dmax w.length

/-- The normalized extended weights (`weights_with_boundaries_normalized`). -/
noncomputable def pcd_wwbn (dmin dmax : ℝ) (w : List ℝ) : List ℝ :=
  (pcd_wwb w).map fun t => pcd_norm dmin dmax w * t

/-- Membership of `x` in region `i` of `get_conditions`: the half-open
interval between consecutive extended edges,
`bins_with_boundaries[i] <= x < bins_with_boundaries[i+1]`. -/
noncomputable def pcd_cond (dmin dmax : ℝ) (w : List ℝ) (x : ℝ) (i : ℕ) : Prop :=
  (pcd_bins_wb dmin dmax w.length).getD i ⊤ ≤ (x : EReal) ∧
    (x : EReal) < (pcd_bins_wb dmin dmax w.length).getD (i + 1) ⊥

open Classical in
/-- Method `piecewise_constant_distribution_normalized.pdf`: `np.piecewise`
assigns `weights_with_boundaries_normalized[i]` on region `i`, later regions
overwriting earlier ones (the regions are disjoint). -/
noncomputable def pcd_pdf (dmin dmax : ℝ) (w : List ℝ) (x : ℝ) : ℝ :=
  (List.range (w.length + 2)).foldl
    (fun acc i => if pcd_cond dmin dmax w x i then (pcd_wwbn dmin dmax w).getD i 0 else acc) 0

/-- Entry `i` of `cumulated_normalized_weights = np.cumsum(...)`. -/
noncomputable def pcd_cum (dmin dmax : ℝ) (w : List ℝ) (i : ℕ) : ℝ :=
  ((pcd_wwbn dmin dmax w).take (i + 1)).sum

/-- The function list of `piecewise_constant_distribution_normalized.cdf`:
constant `0` below the support, the linear antiderivative pieces inside, and
constant `1` above. -/
noncomputable def pcd_funclist (dmin dmax : ℝ) (w : List ℝ) (i : ℕ) : ℝ → ℝ :=
  if i = 0 then fun _ => 0
  else if i ≤ w.length then fun x =>
    (pcd_wwbn dmin dmax w).getD i 0 * (x - (pcd_bins dmin dmax w.length).getD (i - 1) 0) +
      pcd_cum dmin dmax w (i - 1) * pcd_delta dmin dmax w.length
  else fun _ => 1

open Classical in
/-- Method `piecewise_constant_distribution_normalized.cdf` via
`np.piecewise`. -/
noncomputable def pcd_cdf (dmin dmax : ℝ) (w : List ℝ) (x : ℝ) : ℝ :=
  (List.range (w.length + 2)).foldl
    (fun acc i => if pcd_cond dmin dmax w x i then pcd_funclist dmin dmax w i x else acc) 0

/-- Class `BinModel1d`: a `basic_1dimpdf` whose kernels take the logarithm of
the piecewise-constant density and cumulative. -/
noncomputable def BinModel1d (dmin dmax : ℝ) (w : List ℝ) : basic_1dimpdf where
  minval := dmin
  maxval := dmax
  _log_pdf := fun x => flog (.fin (pcd_pdf dmin dmax w x))
  _log_cdf := fun x => flog (.fin (pcd_cdf dmin dmax w x))

/-- Reference semantics of Python attribute binding for
`conditional_2dimpdf.__init__`: the constructed object stores the identities
(addresses) of the two argument objects, not copies of them. -/
structure cond2d_ref where
  pdf1_ref : ℕ
  pdf2_ref : ℕ

/-- Constructor `conditional_2dimpdf.__init__` under reference semantics:
`self.pdf1 = pdf1` and `self.pdf2 = pdf2` bind the argument references. -/
def conditional_2dimpdf_init (p1 p2 : ℕ) : cond2d_ref := ⟨p1, p2⟩

/-- Evaluation of `log_pdf` on a heap `heap : ℕ → basic_1dimpdf`: the stored
references are dereferenced at call time. -/
noncomputable def cond2d_ref.log_pdf (c : cond2d_ref) (heap : ℕ → basic_1dimpdf)
    (x1 x2 : ℝ) : F :=
  conditional_2dimpdf.log_pdf ⟨heap c.pdf1_ref, heap c.pdf2_ref⟩ x1 x2

/-- Helper: `getD` of a mapped list at an in-range index. -/
lemma getD_map_of_lt {α β : Type} (f : α → β) (l : List α) (i : ℕ) (h : i < l.length)
    (d : β) (d2 : α) : (l.map f).getD i d = f (l.getD i d2) := by
  induction l generalizing i with
  | nil => simp at h
  | cons a t ih =>
    cases i with
    | zero => simp
    | succ j =>
        simp only [List.map_cons, List.getD_cons_succ]
        exact ih j (by simpa using h)

/-- C1: for every `basic_1dimpdf` (with any subclass kernels) and every
evaluation point `x`, an `x` outside `[minval, maxval]` forces
`log_pdf x = -inf`, an `x` below `minval` forces `log_cdf x = -inf` (cdf `0`),
and an `x` above `maxval` forces `log_cdf x = 0` (cdf `1`), regardless of what
`_log_pdf`/`_log_cdf` return there. -/
theorem C1_basic_1dimpdf_boundary_clamp (d : basic_1dimpdf) (x : ℝ)
    (h : d.minval ≤ d.maxval) :
    ((x < d.minval ∨ x > d.maxval) → d.log_pdf x = F.ninf) ∧
    (x < d.minval → d.log_cdf x = F.ninf) ∧
    (x > d.maxval → d.log_cdf x = F.fin 0) := by
  refine ⟨fun hx => ?_, fun hx => ?_, fun hx => ?_⟩
  · rw [basic_1dimpdf.log_pdf, if_pos hx]
  · have hno : ¬ x > d.maxval := not_lt.mpr (le_trans hx.le h)
    rw [basic_1dimpdf.log_cdf, if_neg hno, if_pos hx]
  · rw [basic_1dimpdf.log_cdf, if_pos hx]

/-- Demonstration instance `PowerLaw(min=1, max=10, alpha=0)`. -/
noncomputable def PLdemo1 : basic_1dimpdf := PowerLaw 1 10 0

/-- Demonstration instance `PowerLaw(min=2, max=10, alpha=0)`. -/
noncomputable def PLdemo2 : basic_1dimpdf := PowerLaw 2 10 0

theorem C1_basic_1dimpdf_boundary_clamp_witness :
    PLdemo1.minval ≤ PLdemo1.maxval ∧ (0 : ℝ) < PLdemo1.minval ∧
      PLdemo1.log_cdf 0 = F.ninf := by
  have h1 : PLdemo1.minval ≤ PLdemo1.maxval := by norm_num [PLdemo1, PowerLaw]
  have h2 : (0 : ℝ) < PLdemo1.minval := by norm_num [PLdemo1, PowerLaw]
  exact ⟨h1, h2, (C1_basic_1dimpdf_boundary_clamp PLdemo1 0 h1).2.1 h2⟩

/-- C2: for every `conditional_2dimpdf` and every pair `(x1, x2)`, `log_pdf`
equals `pdf1.log_pdf x1 + pdf2.log_pdf x2 - pdf2.log_cdf x1`, except that any
nan result and any pair with `x1 < x2` is set to `-inf`; in particular the
returned value is never nan. -/
theorem C2_conditional_log_pdf (d : conditional_2dimpdf) (x1 x2 : ℝ) :
    (¬ x1 < x2 →
      (F.sub (F.add (d.pdf1.log_pdf x1) (d.pdf2.log_pdf x2)) (d.pdf2.log_cdf x1)).isNaN
        = false →
      d.log_pdf x1 x2 =
        F.sub (F.add (d.pdf1.log_pdf x1) (d.pdf2.log_pdf x2)) (d.pdf2.log_cdf x1)) ∧
    ((x1 < x2 ∨
      (F.sub (F.add (d.pdf1.log_pdf x1) (d.pdf2.log_pdf x2)) (d.pdf2.log_cdf x1)).isNaN
        = true) →
      d.log_pdf x1 x2 = F.ninf) ∧
    (d.log_pdf x1 x2).isNaN = false := by
  refine ⟨fun h1 h2 => ?_, fun h => ?_, ?_⟩
  · rw [conditional_2dimpdf.log_pdf, conditional_2dimpdf._check_bound_pdf,
      if_neg (by simp [h1, h2])]
  · rw [conditional_2dimpdf.log_pdf, conditional_2dimpdf._check_bound_pdf, if_pos h]
  · by_cases h : x1 < x2 ∨
        (F.sub (F.add (d.pdf1.log_pdf x1) (d.pdf2.log_pdf x2)) (d.pdf2.log_cdf x1)).isNaN
          = true
    · rw [conditional_2dimpdf.log_pdf, conditional_2dimpdf._check_bound_pdf, if_pos h]
      rfl
    · rw [conditional_2dimpdf.log_pdf, conditional_2dimpdf._check_bound_pdf, if_neg h]
      have := (not_or.mp h).2
      simpa using this

theorem C2_conditional_log_pdf_witness :
    ((0 : ℝ) < 0 ∨
      (F.sub (F.add (PLdemo1.log_pdf 0) (PLdemo1.log_pdf 0)) (PLdemo1.log_cdf 0)).isNaN
        = true) ∧
    conditional_2dimpdf.log_pdf ⟨PLdemo1, PLdemo1⟩ 0 0 = F.ninf := by
  have hp : PLdemo1.log_pdf 0 = F.ninf := by
    rw [PLdemo1, PowerLaw, basic_1dimpdf.log_pdf]
    norm_num
  have hc : PLdemo1.log_cdf 0 = F.ninf := by
    rw [PLdemo1, PowerLaw, basic_1dimpdf.log_cdf]
    norm_num
  have hdisj : ((0 : ℝ) < 0 ∨
      (F.sub (F.add (PLdemo1.log_pdf 0) (PLdemo1.log_pdf 0)) (PLdemo1.log_cdf 0)).isNaN
        = true) := by
    right
    rw [hp, hc]
    rfl
  exact ⟨hdisj, (C2_conditional_log_pdf ⟨PLdemo1, PLdemo1⟩ 0 0).2.1 hdisj⟩

/-- C4: the window function `_S_factor` with width `w > 0` is `0` at or below
`minval`, `1` at or above `minval + w`, and equals
`1/(1 + exp(w/mprime + w/(mprime - w)))` with `mprime = x - minval` strictly
inside the window; for `w = 0` it is identically `1`. -/
theorem C4_S_factor_window (x mmin w : ℝ) :
    (0 < w →
      ((x ≤ mmin → _S_factor x mmin w = 0) ∧
        (mmin + w ≤ x → _S_factor x mmin w = 1) ∧
        (mmin < x → x < mmin + w →
          _S_factor x mmin w =
            1 / (1 + Real.exp (w / (x - mmin) + w / ((x - mmin) - w)))))) ∧
    _S_factor x mmin 0 = 1 := by
  constructor
  · intro hw
    refine ⟨fun hx => ?_, fun hx => ?_, fun h1 h2 => ?_⟩
    · rw [_S_factor, if_neg hw.ne']
      simp only
      rw [if_neg (not_le.mpr (show x < w + mmin by linarith)), if_pos hx]
    · rw [_S_factor, if_neg hw.ne']
      simp only
      rw [if_pos (show w + mmin ≤ x by linarith)]
    · rw [_S_factor, if_neg hw.ne']
      simp only
      rw [if_neg (not_le.mpr (show x < w + mmin by linarith)),
        if_neg (not_le.mpr h1), if_pos ⟨h1, show x < w + mmin by linarith⟩,
        add_comm (Real.exp _) 1]
  · rw [_S_factor, if_pos rfl]

theorem C4_S_factor_window_witness :
    (0 : ℝ) < 1 ∧ (-1 : ℝ) ≤ 0 ∧ _S_factor (-1) 0 1 = 0 :=
  ⟨by norm_num, by norm_num,
    ((C4_S_factor_window (-1) 0 1).1 (by norm_num)).1 (by norm_num)⟩

lemma PL_normfact_demo1 : PL_normfact 1 10 0 = 9 := by
  rw [PL_normfact, if_neg (by norm_num : (0 : ℝ) ≠ -1),
    show ((0 : ℝ) + 1) = 1 by norm_num, Real.rpow_one, Real.rpow_one]
  norm_num

lemma PLdemo1_log_pdf_two : PLdemo1.log_pdf 2 = F.fin (0 * Real.log 2 - Real.log 9) := by
  rw [PLdemo1]
  simp only [PowerLaw, basic_1dimpdf.log_pdf]
  rw [if_neg (by norm_num), flog_fin_pos (by norm_num : (0 : ℝ) < 2), PL_normfact_demo1,
    flog_fin_pos (by norm_num : (0 : ℝ) < 9)]
  simp

lemma PLdemo1_log_cdf_two : PLdemo1.log_cdf 2 = F.fin (Real.log (1 / 9)) := by
  rw [PLdemo1]
  simp only [PowerLaw, basic_1dimpdf.log_cdf]
  rw [if_neg (by norm_num), if_neg (by norm_num), if_neg (by norm_num : (0 : ℝ) ≠ -1)]
  have h1 : ((2 : ℝ) ^ ((0 : ℝ) + 1) - (1 : ℝ) ^ ((0 : ℝ) + 1)) / ((0 : ℝ) + 1) /
      PL_normfact 1 10 0 = 1 / 9 := by
    rw [PL_normfact_demo1, show ((0 : ℝ) + 1) = 1 by norm_num, Real.rpow_one, Real.rpow_one]
    norm_num
  rw [h1, flog_fin_pos (by norm_num : (0 : ℝ) < 1 / 9)]

/-- Heap holding the caller's original sub-distribution objects. -/
noncomputable def heap0 : ℕ → basic_1dimpdf := fun _ => PLdemo1

/-- The heap after the caller mutates the object stored at address `0`
(raising its `minval` from `1` to `5`). -/
noncomputable def heap1 : ℕ → basic_1dimpdf := Function.update heap0 0 (PowerLaw 5 10 0)

/-- C9, counterexample: `conditional_2dimpdf.__init__` stores plain references
(`self.pdf1 = pdf1`, no deep copy), so mutating the caller's `pdf1` after
construction changes a subsequent `log_pdf` evaluation: at `(x1, x2) = (2, 2)`
the value changes from a finite number to `-inf`. -/
theorem C9_ownership_counterexample :
    (conditional_2dimpdf_init 0 1).log_pdf heap1 2 2 ≠
      (conditional_2dimpdf_init 0 1).log_pdf heap0 2 2 := by
  have h5 : (PowerLaw 5 10 0).log_pdf 2 = F.ninf := by
    simp only [PowerLaw, basic_1dimpdf.log_pdf]
    rw [if_pos (by norm_num)]
  have h10 : heap1 0 = PowerLaw 5 10 0 := by
    rw [heap1]
    exact Function.update_same 0 _ heap0
  have h11 : heap1 1 = PLdemo1 := by
    rw [heap1, Function.update_noteq (by norm_num : (1 : ℕ) ≠ 0)]
    rfl
  have hL : (conditional_2dimpdf_init 0 1).log_pdf heap1 2 2 = F.ninf := by
    rw [cond2d_ref.log_pdf]
    simp only [conditional_2dimpdf_init]
    rw [h10, h11, conditional_2dimpdf.log_pdf]
    simp only
    rw [h5, PLdemo1_log_pdf_two, PLdemo1_log_cdf_two]
    simp only [F.add_ninf_fin, F.sub_ninf_fin]
    rw [conditional_2dimpdf._check_bound_pdf, if_neg (by simp)]
  have hR : (conditional_2dimpdf_init 0 1).log_pdf heap0 2 2 =
      F.fin ((0 * Real.log 2 - Real.log 9) + (0 * Real.log 2 - Real.log 9) -
        Real.log (1 / 9)) := by
    rw [cond2d_ref.log_pdf]
    simp only [conditional_2dimpdf_init]
    have e0 : heap0 0 = PLdemo1 := rfl
    have e1 : heap0 1 = PLdemo1 := rfl
    rw [e0, e1, conditional_2dimpdf.log_pdf]
    simp only
    rw [PLdemo1_log_pdf_two, PLdemo1_log_cdf_two]
    simp only [F.add_fin_fin, F.sub_fin_fin]
    rw [conditional_2dimpdf._check_bound_pdf, if_neg (by simp)]
  rw [hL, hR]
  exact fun h => F.noConfusion h

/-- C9, amended: `conditional_2dimpdf` holds its sub-distributions by
reference, not by deep copy: after mutating the heap at the address of the
caller's `pdf1`, every `log_pdf` evaluation reads the mutated object. -/
theorem C9_ownership_amended (heap : ℕ → basic_1dimpdf) (r1 r2 : ℕ)
    (p : basic_1dimpdf) (x1 x2 : ℝ) (h : r1 ≠ r2) :
    (conditional_2dimpdf_init r1 r2).log_pdf (Function.update heap r1 p) x1 x2 =
      conditional_2dimpdf.log_pdf ⟨p, heap r2⟩ x1 x2 := by
  rw [cond2d_ref.log_pdf]
  simp only [conditional_2dimpdf_init]
  rw [Function.update_same, Function.update_noteq (Ne.symm h)]

theorem C9_ownership_amended_witness :
    (0 : ℕ) ≠ 1 ∧
    (conditional_2dimpdf_init 0 1).log_pdf (Function.update heap0 0 (PowerLaw 5 10 0)) 2 2 =
      conditional_2dimpdf.log_pdf ⟨PowerLaw 5 10 0, heap0 1⟩ 2 2 :=
  ⟨by norm_num, C9_ownership_amended heap0 0 1 (PowerLaw 5 10 0) 2 2 (by norm_num)⟩

/-- C5: the PowerLaw normalization constant is
`(max^(alpha+1) - min^(alpha+1))/(alpha+1)` for `alpha /= -1` and
`log(max/min)` at `alpha = -1`; for `PowerLaw(min=1, max=10, alpha=-2)` the
constant is `0.9` and `pdf 1 = 1/0.9`. -/
theorem C5_PL_normfact_spec (mn mx a : ℝ) :
    (a ≠ -1 → PL_normfact mn mx a = (mx ^ (a + 1) - mn ^ (a + 1)) / (a + 1)) ∧
    PL_normfact mn mx (-1) = Real.log (mx / mn) ∧
    PL_normfact 1 10 (-2) = 0.9 ∧
    (PowerLaw 1 10 (-2)).pdf 1 = F.fin (1 / 0.9) := by
  have h09 : PL_normfact 1 10 (-2) = 0.9 := by
    rw [PL_normfact, if_neg (by norm_num : (-2 : ℝ) ≠ -1),
      show ((-2 : ℝ) + 1) = ((-1 : ℤ) : ℝ) by norm_num,
      Real.rpow_intCast, Real.rpow_intCast]
    norm_num
  refine ⟨fun ha => ?_, ?_, h09, ?_⟩
  · rw [PL_normfact, if_neg ha]
  · rw [PL_normfact, if_pos rfl]
  · rw [basic_1dimpdf.pdf]
    simp only [PowerLaw, basic_1dimpdf.log_pdf]
    rw [if_neg (by norm_num), flog_fin_pos (by norm_num : (0 : ℝ) < 1), h09,
      flog_fin_pos (by norm_num : (0 : ℝ) < 0.9)]
    simp only [F.mul_fin_fin, F.sub_fin_fin, fexp_fin]
    rw [Real.log_one, mul_zero, zero_sub, Real.exp_neg,
      Real.exp_log (by norm_num : (0 : ℝ) < 0.9)]
    norm_num

theorem C5_PL_normfact_spec_witness :
    ((0 : ℝ) ≠ -1) ∧
      PL_normfact 2 3 0 = ((3 : ℝ) ^ ((0 : ℝ) + 1) - (2 : ℝ) ^ ((0 : ℝ) + 1)) / ((0 : ℝ) + 1) :=
  ⟨by norm_num, (C5_PL_normfact_spec 2 3 0).1 (by norm_num)⟩

lemma getD_linspaceQ (a b : ℚ) (n i : ℕ) (h : i < n) :
    (linspaceQ a b n).getD i 0 = a + (i : ℚ) * (b - a) / ((n : ℚ) - 1) := by
  rw [linspaceQ]
  have hl : i < ((List.range n).map fun j : ℕ =>
      a + (j : ℚ) * (b - a) / ((n : ℚ) - 1)).length := by simpa using h
  rw [List.getD_eq_getElem _ _ hl]
  simp

lemma sum_map_div (l : List ℚ) (c : ℚ) : (l.map (fun v => v / c)).sum = l.sum / c := by
  induction l with
  | nil => simp
  | cons a t ih => simp [ih, add_div]

/-- C7: `generate_spline_from_slope_list` rescales the tangents
`slope_i + 0.5` so that their mean is exactly `1`, builds the y-points by a
cumulative left Riemann sum of the tangents with step equal to the spacing of
the `n` equally spaced x-points on `[-x_range, x_range]`, and shifts the
y-points so that the middle point (index `(n-1)/2` rounded down) maps to
`0`. -/
theorem C7_spline_generation (s : List ℚ) (x_range : ℚ)
    (hn : 2 ≤ s.length) (hs : (s.map (· + 1/2)).sum ≠ 0) :
    ((SplineWrapper_dy_dx s).sum / (s.length : ℚ) = 1) ∧
    (∀ i, i < s.length →
      (SplineWrapper_dy_dx s).getD i 0 =
        (s.getD i 0 + 1/2) * ((s.length : ℚ) / (s.map (· + 1/2)).sum)) ∧
    (∀ i, i < s.length →
      (SplineWrapper_x_points x_range s.length).getD i 0 =
        -x_range + (i : ℚ) * (2 * x_range) / ((s.length : ℚ) - 1)) ∧
    SplineWrapper_delta_x x_range s.length = 2 * x_range / ((s.length : ℚ) - 1) ∧
    (∀ i, SplineWrapper_y_points x_range s (i + 1) - SplineWrapper_y_points x_range s i =
      SplineWrapper_delta_x x_range s.length * (SplineWrapper_dy_dx s).getD i 0) ∧
    SplineWrapper_y_points x_range s (SplineWrapper_mid s.length) = 0 := by
  have hlen0 : (0 : ℚ) < (s.length : ℚ) := by
    have : 0 < s.length := by omega
    exact_mod_cast this
  refine ⟨?_, fun i hi => ?_, fun i hi => ?_, ?_, fun i => ?_, ?_⟩
  · rw [SplineWrapper_dy_dx, sum_map_div, div_div_eq_mul_div, mul_comm, mul_div_assoc,
      div_self hs, mul_one, div_self hlen0.ne']
  · rw [SplineWrapper_dy_dx, getD_map_of_lt _ _ i (by simpa using hi) 0 0,
      getD_map_of_lt _ _ i (by simpa using hi) 0 0, div_div_eq_mul_div, mul_div_assoc]
  · rw [SplineWrapper_x_points, getD_linspaceQ _ _ _ i hi]
    ring_nf
  · rw [SplineWrapper_delta_x, SplineWrapper_x_points,
      getD_linspaceQ _ _ _ 1 (by omega), getD_linspaceQ _ _ _ 0 (by omega)]
    push_cast
    ring
  · simp only [SplineWrapper_y_points, SplineWrapper_y_raw]
    ring
  · simp [SplineWrapper_y_points]

theorem C7_spline_generation_witness :
    (2 ≤ ([0, 0, 0] : List ℚ).length) ∧
    ((([0, 0, 0] : List ℚ).map (· + 1/2)).sum ≠ 0) ∧
    (SplineWrapper_dy_dx [0, 0, 0]).sum / ((([0, 0, 0] : List ℚ).length : ℚ)) = 1 :=
  ⟨by decide, by norm_num, (C7_spline_generation [0, 0, 0] 3 (by decide) (by norm_num)).1⟩

/-- C8: for a `piecewise_constant_2d_distribution_normalized` over
`n(n+1)/2` triangular-bin weights, the float inversion recovering `n` from
the weight count is exact, and after normalization the sum over all valid
triangular bins of `normalized weight * bin area` (with each diagonal bin
contributing half the area `delta_x1 * delta_x2` of an off-diagonal bin)
equals exactly `1`. -/
theorem C8_pc2d_norm_sums_to_one (n : ℕ) (w : List ℚ) (dmin dmax : ℚ)
    (hn : 0 < n) (hw : w.length = n * (n + 1) / 2)
    (hS : pc2d_matrix_sum w n ≠ 0) (hd : dmin < dmax) :
    pc2d_n_bins_1d w.length = n ∧
    (∑ r in Finset.range n, ∑ c in Finset.range n,
      (if r ≤ c then
        (pc2d_compute_norm dmin dmax w n * w.getD (pc2d_triuIdx n r c) 0) *
          (pc2d_delta_bin dmin dmax n * pc2d_delta_bin dmin dmax n *
            (if r = c then (1 : ℚ)/2 else 1))
       else 0)) = 1 := by
  have hn1 : pc2d_n_bins_1d w.length = n := by
    rw [hw, pc2d_n_bins_1d]
    have h8 : 1 + 8 * (n * (n + 1) / 2) = (2 * n + 1) ^ 2 := by
      have h2 : 2 ∣ n * (n + 1) := (Nat.even_mul_succ_self n).two_dvd
      obtain ⟨k, hk⟩ := h2
      have hr : (2 * n + 1) ^ 2 = 4 * (n * (n + 1)) + 1 := by ring
      omega
    rw [h8, Nat.sqrt_eq']
    omega
  refine ⟨hn1, ?_⟩
  have hδ : pc2d_delta_bin dmin dmax n = (dmax - dmin) / (n : ℚ) := by
    rw [pc2d_delta_bin, getD_linspaceQ _ _ _ 1 (by omega), getD_linspaceQ _ _ _ 0 (by omega)]
    push_cast
    ring
  have hδne : pc2d_delta_bin dmin dmax n ≠ 0 := by
    rw [hδ]
    have h1 : dmax - dmin ≠ 0 := sub_ne_zero.mpr hd.ne'
    have h2 : (n : ℚ) ≠ 0 := by exact_mod_cast hn.ne'
    exact div_ne_zero h1 h2
  have hstep : ∀ r ∈ Finset.range n, ∀ c ∈ Finset.range n,
      (if r ≤ c then
        (pc2d_compute_norm dmin dmax w n * w.getD (pc2d_triuIdx n r c) 0) *
          (pc2d_delta_bin dmin dmax n * pc2d_delta_bin dmin dmax n *
            (if r = c then (1 : ℚ)/2 else 1))
       else 0) =
      (pc2d_compute_norm dmin dmax w n *
        (pc2d_delta_bin dmin dmax n * pc2d_delta_bin dmin dmax n)) *
        pc2d_triu_weight w n r c := by
    intro r hr c hc
    have hcn : c < n := Finset.mem_range.mp hc
    simp only [pc2d_triu_weight]
    by_cases hrc : r ≤ c
    · simp only [if_pos hrc, if_pos (show r ≤ c ∧ c < n from ⟨hrc, hcn⟩)]
      ring
    · simp only [if_neg hrc, if_neg (show ¬(r ≤ c ∧ c < n) from fun hco => hrc hco.1)]
      ring
  rw [Finset.sum_congr rfl fun r hr => Finset.sum_congr rfl fun c hc => hstep r hr c hc]
  simp_rw [← Finset.mul_sum]
  rw [← pc2d_matrix_sum, pc2d_compute_norm]
  field_simp
  ring

theorem C8_pc2d_norm_sums_to_one_witness :
    0 < 2 ∧ ([1, 1, 1] : List ℚ).length = 2 * (2 + 1) / 2 ∧
    pc2d_matrix_sum [1, 1, 1] 2 ≠ 0 ∧ (0 : ℚ) < 1 ∧
    pc2d_n_bins_1d (([1, 1, 1] : List ℚ).length) = 2 := by
  have hS : pc2d_matrix_sum [1, 1, 1] 2 ≠ 0 := by
    norm_num [pc2d_matrix_sum, pc2d_triu_weight, pc2d_triuIdx,
      Finset.sum_range_succ, Finset.sum_range_zero]
  exact ⟨by decide, by decide, hS, by norm_num,
    (C8_pc2d_norm_sums_to_one 2 [1, 1, 1] 0 1 (by decide) (by decide) hS (by norm_num)).1⟩

lemma F.div_fin_fin_ne {a b : ℝ} (hb : b ≠ 0) : F.div (.fin a) (.fin b) = .fin (a / b) := by
  simp [F.div, hb]

lemma erf_strictMono : StrictMono erf := by
  intro a b hab
  have hcont : Continuous fun t : ℝ => Real.exp (-t ^ 2) :=
    Real.continuous_exp.comp (continuous_pow 2).neg
  have hpos0 : (0 : ℝ) < 2 / Real.sqrt Real.pi :=
    div_pos two_pos (Real.sqrt_pos.mpr Real.pi_pos)
  have hint : 0 < ∫ t in a..b, Real.exp (-t ^ 2) :=
    intervalIntegral.intervalIntegral_pos_of_pos (hcont.intervalIntegrable a b)
      (fun x => Real.exp_pos _) hab
  have hsplit : (∫ t in (0:ℝ)..a, Real.exp (-t ^ 2)) + ∫ t in a..b, Real.exp (-t ^ 2) =
      ∫ t in (0:ℝ)..b, Real.exp (-t ^ 2) :=
    intervalIntegral.integral_add_adjacent_intervals (hcont.intervalIntegrable 0 a)
      (hcont.intervalIntegrable a b)
  rw [erf, erf]
  have hlt : (∫ t in (0:ℝ)..a, Real.exp (-t ^ 2)) < ∫ t in (0:ℝ)..b, Real.exp (-t ^ 2) := by
    rw [← hsplit]
    linarith
  exact mul_lt_mul_of_pos_left hlt hpos0

lemma get_gaussian_norm_pos (ming maxg meang sigmag : ℝ) (h : ming < maxg) (hσ : 0 < sigmag) :
    0 < get_gaussian_norm ming maxg meang sigmag := by
  rw [get_gaussian_norm]
  have hs2 : 0 < sigmag * Real.sqrt 2 := mul_pos hσ (Real.sqrt_pos.mpr two_pos)
  have harg : (ming - meang) / (sigmag * Real.sqrt 2) < (maxg - meang) / (sigmag * Real.sqrt 2) :=
    (div_lt_div_right hs2).mpr (by linarith)
  have := erf_strictMono harg
  linarith

lemma PL_normfact_pos (minpl maxpl alpha : ℝ) (h0 : 0 < minpl) (h : minpl < maxpl) :
    0 < PL_normfact minpl maxpl alpha := by
  rw [PL_normfact]
  by_cases ha : alpha = -1
  · rw [if_pos ha]
    exact Real.log_pos ((one_lt_div h0).mpr h)
  · rw [if_neg ha]
    have hmax0 : 0 < maxpl := h0.trans h
    have hlog : Real.log minpl < Real.log maxpl := Real.log_lt_log h0 h
    have hne : alpha + 1 ≠ 0 := fun hc => ha (by linarith)
    rcases hne.lt_or_lt with hc | hc
    · have hlt : maxpl ^ (alpha + 1) < minpl ^ (alpha + 1) := by
        rw [Real.rpow_def_of_pos h0, Real.rpow_def_of_pos hmax0]
        exact Real.exp_lt_exp.mpr (by nlinarith)
      exact div_pos_iff.mpr (Or.inr ⟨by linarith, hc⟩)
    · have hlt : minpl ^ (alpha + 1) < maxpl ^ (alpha + 1) := by
        rw [Real.rpow_def_of_pos h0, Real.rpow_def_of_pos hmax0]
        exact Real.exp_lt_exp.mpr (by nlinarith)
      exact div_pos (by linarith) hc

lemma PowerLaw_cdf_ge_max (minpl maxpl alpha z : ℝ) (h0 : 0 < minpl) (h : minpl < maxpl)
    (hz : maxpl ≤ z) : (PowerLaw minpl maxpl alpha).cdf z = F.fin 1 := by
  rw [basic_1dimpdf.cdf]
  rcases eq_or_lt_of_le hz with hz2 | hz2
  · subst hz2
    rw [basic_1dimpdf.log_cdf]
    simp only [PowerLaw]
    rw [if_neg (lt_irrefl _), if_neg (not_lt.mpr h.le)]
    by_cases ha : alpha = -1
    · subst ha
      have hratio : (1 : ℝ) < maxpl / minpl := (one_lt_div h0).mpr h
      rw [if_pos rfl, flog_fin_pos (by linarith : (0:ℝ) < maxpl / minpl), PL_normfact,
        if_pos rfl, F.div_fin_fin_ne (Real.log_pos hratio).ne',
        div_self (Real.log_pos hratio).ne', flog_fin_pos one_pos, Real.log_one]
      simp [Real.exp_zero]
    · have hnf := PL_normfact_pos minpl maxpl alpha h0 h
      have hnum : (maxpl ^ (alpha + 1) - minpl ^ (alpha + 1)) / (alpha + 1) =
          PL_normfact minpl maxpl alpha := by rw [PL_normfact, if_neg ha]
      rw [if_neg ha, hnum, div_self hnf.ne', flog_fin_pos one_pos, Real.log_one]
      simp [Real.exp_zero]
  · rw [basic_1dimpdf.log_cdf]
    simp only [PowerLaw]
    rw [if_pos hz2]
    simp [Real.exp_zero]

lemma TruncatedGaussian_cdf_ge_max (meang sigmag ming maxg z : ℝ) (h : ming < maxg)
    (hσ : 0 < sigmag) (hz : maxg ≤ z) :
    (TruncatedGaussian meang sigmag ming maxg).cdf z = F.fin 1 := by
  rw [basic_1dimpdf.cdf]
  rcases eq_or_lt_of_le hz with hz2 | hz2
  · subst hz2
    rw [basic_1dimpdf.log_cdf]
    simp only [TruncatedGaussian]
    rw [if_neg (lt_irrefl _), if_neg (not_lt.mpr h.le)]
    have hnf := get_gaussian_norm_pos ming maxg meang sigmag h hσ
    have hnum : 0.5 * erf ((maxg - meang) / (sigmag * Real.sqrt 2)) -
        0.5 * erf ((ming - meang) / (sigmag * Real.sqrt 2)) =
        get_gaussian_norm ming maxg meang sigmag := by rw [get_gaussian_norm]
    rw [hnum, div_self hnf.ne', flog_fin_pos one_pos, Real.log_one]
    simp [Real.exp_zero]
  · rw [basic_1dimpdf.log_cdf]
    simp only [TruncatedGaussian]
    rw [if_pos hz2]
    simp [Real.exp_zero]

/-- C6: for every `PowerLawGaussian` with mixture weight `lambdag` strictly
between `0` and `1` and valid component parameters, the mixture log-cdf is the
direct weighted sum of the component cdfs re-logged, the mixture log-density
is the log-sum-exp of `log weight + component log-density`, and the cdf at the
mixture support maximum `max(maxpl, maxg)` equals `1` regardless of the
weight. -/
theorem C6_PowerLawGaussian_mixture (minpl maxpl alpha lambdag meang sigmag ming maxg : ℝ)
    (h0 : 0 < minpl) (h1 : minpl < maxpl) (h2 : ming < maxg) (h3 : 0 < sigmag)
    (h4 : 0 < lambdag) (h5 : lambdag < 1) :
    (∀ x, (PowerLawGaussian minpl maxpl alpha lambdag meang sigmag ming maxg)._log_cdf x =
      flog (F.add (F.mul (.fin (1 - lambdag)) ((PowerLaw minpl maxpl alpha).cdf x))
        (F.mul (.fin lambdag) ((TruncatedGaussian meang sigmag ming maxg).cdf x)))) ∧
    (∀ x, (PowerLawGaussian minpl maxpl alpha lambdag meang sigmag ming maxg)._log_pdf x =
      F.logaddexp
        (F.add (flog (.fin (1 - lambdag))) ((PowerLaw minpl maxpl alpha).log_pdf x))
        (F.add (flog (.fin lambdag)) ((TruncatedGaussian meang sigmag ming maxg).log_pdf x))) ∧
    (PowerLawGaussian minpl maxpl alpha lambdag meang sigmag ming maxg).cdf (max maxpl maxg) =
      F.fin 1 := by
  refine ⟨fun x => rfl, fun x => ?_, ?_⟩
  · have hbridge : flog1p (.fin (-lambdag)) = flog (.fin (1 - lambdag)) := by
      simp only [flog1p, flog]
      rw [show (1 + -lambdag) = 1 - lambdag by ring]
    simp only [PowerLawGaussian]
    rw [hbridge]
  · rw [basic_1dimpdf.cdf, basic_1dimpdf.log_cdf]
    simp only [PowerLawGaussian]
    have hmm : ¬ (max maxpl maxg < min minpl ming) := by
      push_neg
      calc min minpl ming ≤ minpl := min_le_left _ _
        _ ≤ maxpl := h1.le
        _ ≤ max maxpl maxg := le_max_left _ _
    rw [if_neg (lt_irrefl _), if_neg hmm,
      PowerLaw_cdf_ge_max minpl maxpl alpha _ h0 h1 (le_max_left _ _),
      TruncatedGaussian_cdf_ge_max meang sigmag ming maxg _ h2 h3 (le_max_right _ _)]
    simp only [F.mul_fin_fin, F.add_fin_fin]
    rw [show ((1 - lambdag) * 1 + lambdag * 1 : ℝ) = 1 by ring, flog_fin_pos one_pos,
      Real.log_one]
    simp [Real.exp_zero]

theorem C6_PowerLawGaussian_mixture_witness :
    ((0 : ℝ) < 1 ∧ (1 : ℝ) < 2 ∧ (-1 : ℝ) < 1 ∧ (0 : ℝ) < 1 ∧
      (0 : ℝ) < 1/2 ∧ (1/2 : ℝ) < 1) ∧
    (PowerLawGaussian 1 2 (-2) (1/2) 0 1 (-1) 1).cdf (max 2 1) = F.fin 1 :=
  ⟨by norm_num,
    (C6_PowerLawGaussian_mixture 1 2 (-2) (1/2) 0 1 (-1) 1 (by norm_num) (by norm_num)
      (by norm_num) (by norm_num) (by norm_num) (by norm_num)).2.2⟩

lemma getD_linspaceList (a b : ℝ) (n i : ℕ) (h : i < n) :
    (linspaceList a b n).getD i 0 = a + (i : ℝ) * (b - a) / ((n : ℝ) - 1) := by
  rw [linspaceList]
  have hl : i < ((List.range n).map fun j : ℕ =>
      a + (j : ℝ) * (b - a) / ((n : ℝ) - 1)).length := by simpa using h
  rw [List.getD_eq_getElem _ _ hl]
  simp

lemma pcd_bins_getD_last (dmin dmax : ℝ) (n : ℕ) (hn : 0 < n) :
    (pcd_bins dmin dmax n).getD n 0 = dmax := by
  rw [pcd_bins, getD_linspaceList _ _ _ n (by omega)]
  have hc : ((n + 1 : ℕ) : ℝ) - 1 = (n : ℝ) := by push_cast; ring
  have hne : (n : ℝ) ≠ 0 := Nat.cast_ne_zero.mpr hn.ne'
  rw [hc]
  field_simp

lemma pcd_cond_last (dmin dmax : ℝ) (w : List ℝ) (hn : 0 < w.length) :
    pcd_cond dmin dmax w dmax (w.length + 1) := by
  have hlenmap : ((pcd_bins dmin dmax w.length).map fun t : ℝ => (t : EReal)).length =
      w.length + 1 := by simp [pcd_bins, linspaceList]
  constructor
  · have hB : (pcd_bins_wb dmin dmax w.length).getD (w.length + 1) ⊤ =
        ((dmax : ℝ) : EReal) := by
      rw [pcd_bins_wb, List.getD_cons_succ,
        List.getD_append _ _ _ _ (by rw [hlenmap]; omega),
        getD_map_of_lt (fun t : ℝ => (t : EReal)) _ w.length
          (by simp [pcd_bins, linspaceList]) ⊤ 0,
        pcd_bins_getD_last dmin dmax w.length hn]
    rw [hB]
  · have hB2 : (pcd_bins_wb dmin dmax w.length).getD (w.length + 1 + 1) ⊥ = (⊤ : EReal) := by
      rw [pcd_bins_wb, List.getD_cons_succ,
        List.getD_append_right _ _ _ _ (by rw [hlenmap])]
      simp [hlenmap]
    rw [hB2]
    exact EReal.coe_lt_top dmax
  
lemma pcd_wwbn_getD_last (dmin dmax : ℝ) (w : List ℝ) :
    (pcd_wwbn dmin dmax w).getD (w.length + 1) 0 = 0 := by
  rw [pcd_wwbn,
    getD_map_of_lt _ _ (w.length + 1) (by simp [pcd_wwb]) 0 0,
    pcd_wwb, List.getD_cons_succ, List.getD_append_right _ _ _ _ (le_refl _)]
  simp

/-- C10: for every `BinModel1d` over `[dist_min, dist_max]` with at least one
bin, evaluating exactly at `x = dist_max` returns density `0` (and
`log_pdf = -inf`), not the last bin's normalized weight: the half-open
bin conditions put the right endpoint into the implicit zero-weight boundary
bin, while the base-class clamp (strict inequalities) does not fire there. -/
theorem C10_BinModel1d_right_edge (dmin dmax : ℝ) (w : List ℝ) (hn : 0 < w.length) :
    pcd_pdf dmin dmax w dmax = 0 ∧
    (BinModel1d dmin dmax w).log_pdf dmax = F.ninf ∧
    (BinModel1d dmin dmax w).pdf dmax = F.fin 0 := by
  have hpdf : pcd_pdf dmin dmax w dmax = 0 := by
    rw [pcd_pdf, List.range_succ, List.foldl_append, List.foldl_cons, List.foldl_nil,
      if_pos (pcd_cond_last dmin dmax w hn), pcd_wwbn_getD_last]
  have hlog : (BinModel1d dmin dmax w).log_pdf dmax = F.ninf := by
    rw [basic_1dimpdf.log_pdf]
    by_cases hcl : dmax < (BinModel1d dmin dmax w).minval ∨
        dmax > (BinModel1d dmin dmax w).maxval
    · rw [if_pos hcl]
    · rw [if_neg hcl]
      show flog (.fin (pcd_pdf dmin dmax w dmax)) = F.ninf
      rw [hpdf, flog_fin_zero]
  refine ⟨hpdf, hlog, ?_⟩
  rw [basic_1dimpdf.pdf, hlog]
  rfl

theorem C10_BinModel1d_right_edge_witness :
    0 < ([1, 2] : List ℝ).length ∧
    (BinModel1d 0 1 [1, 2]).log_pdf 1 = F.ninf :=
  ⟨by decide, (C10_BinModel1d_right_edge 0 1 [1, 2] (by decide)).2.1⟩

lemma interp_le_head (q x y : ℝ) (xs ys : List ℝ) (hlen : xs.length = ys.length)
    (hq : q ≤ x) : interp q (x :: xs) (y :: ys) = y := by
  cases xs with
  | nil =>
    cases ys with
    | nil => rfl
    | cons b bs => simp at hlen
  | cons a as =>
    cases ys with
    | nil => simp at hlen
    | cons b bs => simp only [interp, if_pos hq]

lemma interp_ge_head (q : ℝ) : ∀ (xs ys : List ℝ) (x y : ℝ),
    xs.length = ys.length → List.Sorted (· ≤ ·) (x :: xs) →
    List.Sorted (· ≤ ·) (y :: ys) → y ≤ interp q (x :: xs) (y :: ys) := by
  intro xs
  induction xs with
  | nil =>
    intro ys x y hlen _ _
    have hys : ys = [] := List.length_eq_zero.mp hlen.symm
    subst hys
    simp [interp]
  | cons x2 xs2 ih =>
    intro ys x y hlen hsx hsy
    cases ys with
    | nil => simp at hlen
    | cons y2 ys2 =>
      have hyy : y ≤ y2 := (List.sorted_cons.mp hsy).1 y2 (by simp)
      have hxx : x ≤ x2 := (List.sorted_cons.mp hsx).1 x2 (by simp)
      simp only [interp]
      by_cases h1 : q ≤ x
      · rw [if_pos h1]
      · rw [if_neg h1]
        by_cases h2 : q ≤ x2
        · rw [if_pos h2]
          rcases eq_or_lt_of_le hxx with he | hlt2
          · exact absurd (h2.trans he.ge) h1
          · have hq1 : 0 < q - x := sub_pos.mpr (not_le.mp h1)
            have hden : 0 < x2 - x := sub_pos.mpr hlt2
            have hnn : 0 ≤ (y2 - y) * (q - x) / (x2 - x) :=
              div_nonneg (mul_nonneg (by linarith) (by linarith)) (by linarith)
            linarith
        · rw [if_neg h2]
          have hrec := ih ys2 x2 y2 (by simpa using hlen)
            (List.sorted_cons.mp hsx).2 (List.sorted_cons.mp hsy).2
          linarith

lemma interp_mono (q q2 : ℝ) (hq : q ≤ q2) : ∀ (xs ys : List ℝ),
    xs.length = ys.length → List.Sorted (· ≤ ·) xs → List.Sorted (· ≤ ·) ys →
    interp q xs ys ≤ interp q2 xs ys := by
  intro xs
  induction xs with
  | nil =>
    intro ys hlen _ _
    have hys : ys = [] := List.length_eq_zero.mp hlen.symm
    subst hys
    simp [interp]
  | cons x xs2 ih =>
    intro ys hlen hsx hsy
    cases ys with
    | nil => simp at hlen
    | cons y ys2 =>
      cases xs2 with
      | nil =>
        cases ys2 with
        | nil => simp [interp]
        | cons b bs => simp at hlen
      | cons x2 xs3 =>
        cases ys2 with
        | nil => simp at hlen
        | cons y2 ys3 =>
          have hyy : y ≤ y2 := (List.sorted_cons.mp hsy).1 y2 (by simp)
          have hxx : x ≤ x2 := (List.sorted_cons.mp hsx).1 x2 (by simp)
          have hlen3 : xs3.length = ys3.length := by simpa using hlen
          have hsx2 : List.Sorted (· ≤ ·) (x2 :: xs3) := (List.sorted_cons.mp hsx).2
          have hsy2 : List.Sorted (· ≤ ·) (y2 :: ys3) := (List.sorted_cons.mp hsy).2
          simp only [interp]
          by_cases h1 : q ≤ x
          · rw [if_pos h1]
            by_cases h1b : q2 ≤ x
            · rw [if_pos h1b]
            · rw [if_neg h1b]
              by_cases h2b : q2 ≤ x2
              · rw [if_pos h2b]
                rcases eq_or_lt_of_le hxx with he | hlt2
                · exact absurd (h2b.trans he.ge) h1b
                · have hnn : 0 ≤ (y2 - y) * (q2 - x) / (x2 - x) :=
                    div_nonneg (mul_nonneg (by linarith) (by linarith [not_le.mp h1b]))
                      (by linarith)
                  linarith
              · rw [if_neg h2b]
                have hrec := interp_ge_head q2 xs3 ys3 x2 y2 hlen3 hsx2 hsy2
                linarith
          · rw [if_neg h1, if_neg (fun hc => h1 (hq.trans hc))]
            by_cases h2 : q ≤ x2
            · rw [if_pos h2]
              have hx2 : x < x2 := lt_of_lt_of_le (not_le.mp h1) h2
              have hden : 0 < x2 - x := sub_pos.mpr hx2
              by_cases h2b : q2 ≤ x2
              · rw [if_pos h2b]
                have hnum : (y2 - y) * (q - x) ≤ (y2 - y) * (q2 - x) :=
                  mul_le_mul_of_nonneg_left (by linarith) (by linarith)
                have hdiv : (y2 - y) * (q - x) / (x2 - x) ≤ (y2 - y) * (q2 - x) / (x2 - x) :=
                  div_le_div_of_le_of_nonneg hnum (by linarith)
                linarith
              · rw [if_neg h2b]
                have hcoef : (y2 - y) * (q - x) / (x2 - x) ≤ y2 - y := by
                  rw [div_le_iff hden]
                  exact mul_le_mul_of_nonneg_left (by linarith) (by linarith)
                have hrec := interp_ge_head q2 xs3 ys3 x2 y2 hlen3 hsx2 hsy2
                linarith
            · rw [if_neg h2]
              by_cases h2b : q2 ≤ x2
              · exact absurd (hq.trans h2b) h2
              · rw [if_neg h2b]
                exact ih (y2 :: ys3) (by simpa using hlen) hsx2 hsy2

lemma linspace_head_ex (a b : ℝ) (n : ℕ) :
    ∃ t : List ℝ, linspaceList a b (n + 1) = a :: t ∧ t.length = n := by
  refine ⟨((List.range n).map Nat.succ).map
      (fun i : ℕ => a + (i : ℝ) * (b - a) / (((n + 1 : ℕ) : ℝ) - 1)), ?_, by simp⟩
  rw [linspaceList, List.range_succ_eq_map, List.map_cons]
  congr 1
  simp

lemma cdfR_nonneg (d : basic_1dimpdf) (x : ℝ) : 0 ≤ d.cdfR x := by
  rw [basic_1dimpdf.cdfR, basic_1dimpdf.cdf]
  cases hv : d.log_cdf x with
  | fin a => simpa using Real.exp_nonneg a
  | pinf => simp [fexp, F.toReal]
  | ninf => simp [F.toReal]
  | nan => simp [fexp, F.toReal]

lemma linspace_sorted (a b : ℝ) (h : a ≤ b) (n : ℕ) :
    List.Sorted (· ≤ ·) (linspaceList a b n) := by
  cases n with
  | zero => simp [linspaceList]
  | succ m =>
    rw [linspaceList]
    have hc : (0 : ℝ) ≤ ((m + 1 : ℕ) : ℝ) - 1 := by
      push_cast
      linarith [Nat.cast_nonneg (α := ℝ) m]
    have hp : List.Pairwise (fun i j : ℕ =>
        a + (i : ℝ) * (b - a) / (((m + 1 : ℕ) : ℝ) - 1) ≤
        a + (j : ℝ) * (b - a) / (((m + 1 : ℕ) : ℝ) - 1)) (List.range (m + 1)) := by
      apply List.Pairwise.imp ?_ (List.pairwise_lt_range (m + 1))
      intro i j hij
      have hij2 : (i : ℝ) ≤ (j : ℝ) := by exact_mod_cast hij.le
      have hstep : 0 ≤ (b - a) / (((m + 1 : ℕ) : ℝ) - 1) := div_nonneg (by linarith) hc
      have hmul := mul_le_mul_of_nonneg_right hij2 hstep
      rw [mul_div_assoc, mul_div_assoc]
      linarith
    exact List.pairwise_map.mpr hp

lemma PLdemo2_cdfR_one : PLdemo2.cdfR 1 = 0 := by
  rw [basic_1dimpdf.cdfR, basic_1dimpdf.cdf, basic_1dimpdf.log_cdf, PLdemo2]
  simp only [PowerLaw]
  rw [if_neg (show ¬((1:ℝ) > 10) by norm_num), if_pos (show (1:ℝ) < 2 by norm_num)]
  rfl

/-- Demonstration conditional distribution whose outer support starts below
the inner support (`pdf1` on `[1, 10]`, `pdf2` on `[2, 10]`). -/
noncomputable def cond_demo : conditional_2dimpdf := ⟨PLdemo1, PLdemo2⟩

/-- C3, counterexample: the sampler of `conditional_2dimpdf` does not satisfy
`x2 <= x1` for all draws.  With `pdf1 = PowerLaw(1, 10, 0)`,
`pdf2 = PowerLaw(2, 10, 0)` and uniform variates `u1 = 0`, `u2 = 1/2`, the
draw is `x1 = 1` (the bottom of the outer support) while the rescaled
inversion clamps to `x2 = 2 = pdf2.minval > x1`. -/
theorem C3_sample_hard_constraint_counterexample :
    ¬ ((cond_demo.sample 0 (1/2)).2 ≤ (cond_demo.sample 0 (1/2)).1) := by
  have hp1min : cond_demo.pdf1.minval = 1 := rfl
  have hp1max : cond_demo.pdf1.maxval = 10 := rfl
  have hp2min : cond_demo.pdf2.minval = 2 := rfl
  have hp2max : cond_demo.pdf2.maxval = 10 := rfl
  have hx1 : cond_demo.sample_x1 0 = 1 := by
    rw [conditional_2dimpdf.sample_x1, hp1min, hp1max]
    obtain ⟨t, ht, htl⟩ := linspace_head_ex 1 10 9999
    rw [show (10000 : ℕ) = 9999 + 1 from rfl, ht, List.map_cons]
    exact interp_le_head 0 _ 1 _ t (by simp) (cdfR_nonneg _ _)
  have hx2 : cond_demo.sample_x2 0 (1/2) = 2 := by
    rw [conditional_2dimpdf.sample_x2, hx1, hp2min, hp2max]
    have hc1 : cond_demo.pdf2.cdfR 1 = 0 := PLdemo2_cdfR_one
    rw [hc1, mul_zero]
    obtain ⟨t, ht, htl⟩ := linspace_head_ex 2 10 9999
    rw [show (10000 : ℕ) = 9999 + 1 from rfl, ht, List.map_cons]
    exact interp_le_head 0 _ 2 _ t (by simp) (cdfR_nonneg _ _)
  have hs : cond_demo.sample 0 (1/2) = (1, 2) := by
    rw [conditional_2dimpdf.sample, hx1, hx2]
  rw [hs]
  norm_num

/-- C3, amended: the `x2` variate is drawn by inverting the tabulated cdf of
`pdf2` at the uniform variate rescaled by `cdf2(x1samp)`; since the tabulated
cdf values are nonnegative and linear interpolation is monotone in its query
(for sorted tables), the returned `x2` never exceeds the interpolated inverse
evaluated at `cdf2(x1samp)` itself.  The exact hard constraint `x2 <= x1`
does not hold for all draws (see the counterexample: when `x1` falls below
`pdf2.minval`, the sampler returns `x2 = pdf2.minval > x1`). -/
theorem C3_sample_rescaling_amended (d : conditional_2dimpdf) (u1 u2 : ℝ)
    (h0 : 0 ≤ u2) (h1 : u2 ≤ 1) (hminmax : d.pdf2.minval ≤ d.pdf2.maxval)
    (hsorted : List.Sorted (· ≤ ·)
      ((linspaceList d.pdf2.minval d.pdf2.maxval 10000).map d.pdf2.cdfR)) :
    (d.sample u1 u2).2 ≤
      interp (d.pdf2.cdfR (d.sample_x1 u1))
        ((linspaceList d.pdf2.minval d.pdf2.maxval 10000).map d.pdf2.cdfR)
        (linspaceList d.pdf2.minval d.pdf2.maxval 10000) := by
  have hc : 0 ≤ d.pdf2.cdfR (d.sample_x1 u1) := cdfR_nonneg _ _
  have hql : u2 * d.pdf2.cdfR (d.sample_x1 u1) ≤ d.pdf2.cdfR (d.sample_x1 u1) := by
    nlinarith
  have hsorted2 : List.Sorted (· ≤ ·) (linspaceList d.pdf2.minval d.pdf2.maxval 10000) :=
    linspace_sorted _ _ hminmax _
  have hgoal : (d.sample u1 u2).2 = interp (u2 * d.pdf2.cdfR (d.sample_x1 u1))
      ((linspaceList d.pdf2.minval d.pdf2.maxval 10000).map d.pdf2.cdfR)
      (linspaceList d.pdf2.minval d.pdf2.maxval 10000) := by
    rw [conditional_2dimpdf.sample, conditional_2dimpdf.sample_x2]
  rw [hgoal]
  exact interp_mono _ _ hql _ _ (by simp) hsorted hsorted2

/-- A flat demonstration distribution on `[0, 1]` with constant kernels. -/
noncomputable def flatdemo : basic_1dimpdf where
  minval := 0
  maxval := 1
  _log_pdf := fun _ => F.fin 0
  _log_cdf := fun _ => F.fin 0

/-- The conditional pair built from two flat demonstration distributions. -/
noncomputable def flatcond : conditional_2dimpdf := ⟨flatdemo, flatdemo⟩

lemma flatdemo_cdfR_sorted : List.Sorted (· ≤ ·)
    ((linspaceList flatdemo.minval flatdemo.maxval 10000).map flatdemo.cdfR) := by
  have hval : ∀ x ∈ linspaceList flatdemo.minval flatdemo.maxval 10000,
      flatdemo.cdfR x = 1 := by
    intro x hx
    rw [show flatdemo.minval = 0 from rfl, show flatdemo.maxval = 1 from rfl,
      linspaceList] at hx
    obtain ⟨i, hi, heq⟩ := List.mem_map.mp hx
    have hx0 : 0 ≤ x := by
      rw [← heq]
      have hd : (0:ℝ) ≤ (i : ℝ) * (1 - 0) / ((10000 : ℕ) - 1 : ℝ) := by
        apply div_nonneg
        · positivity
        · norm_num
      linarith
    rw [basic_1dimpdf.cdfR, basic_1dimpdf.cdf, basic_1dimpdf.log_cdf]
    by_cases hx1 : x > flatdemo.maxval
    · rw [if_pos hx1]
      simp [Real.exp_zero]
    · rw [if_neg hx1, if_neg (show ¬ (x < flatdemo.minval) from not_lt.mpr hx0)]
      show (fexp (F.fin 0)).toReal = 1
      simp [Real.exp_zero]
  have hp := linspace_sorted flatdemo.minval flatdemo.maxval (by norm_num [flatdemo]) 10000
  exact List.pairwise_map.mpr
    (List.Pairwise.imp_of_mem (fun {a} {b} ha hb _ => by rw [hval a ha, hval b hb]) hp)

theorem C3_sample_rescaling_amended_witness :
    ((0:ℝ) ≤ 1/2) ∧ ((1/2:ℝ) ≤ 1) ∧ (flatcond.pdf2.minval ≤ flatcond.pdf2.maxval) ∧
    List.Sorted (· ≤ ·)
      ((linspaceList flatcond.pdf2.minval flatcond.pdf2.maxval 10000).map
        flatcond.pdf2.cdfR) ∧
    (flatcond.sample 0 (1/2)).2 ≤
      interp (flatcond.pdf2.cdfR (flatcond.sample_x1 0))
        ((linspaceList flatcond.pdf2.minval flatcond.pdf2.maxval 10000).map
          flatcond.pdf2.cdfR)
        (linspaceList flatcond.pdf2.minval flatcond.pdf2.maxval 10000) := by
  have h2 : flatcond.pdf2.minval ≤ flatcond.pdf2.maxval := by norm_num [flatcond, flatdemo]
  have hsorted : List.Sorted (· ≤ ·)
      ((linspaceList flatcond.pdf2.minval flatcond.pdf2.maxval 10000).map
        flatcond.pdf2.cdfR) := flatdemo_cdfR_sorted
  exact ⟨by norm_num, by norm_num, h2, hsorted,
    C3_sample_rescaling_amended flatcond 0 (1/2) (by norm_num) (by norm_num) h2 hsorted⟩
